import Mathlib

/-!
Verification of the boundary-layer separation core of the MarineHydro
repository (notebook `3_3_SeparationPrediction.ipynb`).

The notebook defines the Pohlhausen profile helpers `pohlF`, `pohlG`
directly (embedded below from the source) and calls
`vortexpanel.BoundaryLayer.thwaites` / `vortexpanel.BoundaryLayer.sep`,
whose implementation file is not part of the sources available here;
those two operations are therefore modelled from the specification
(section 4 of the design document), as noted on each definition.

Floating-point arrays are embedded as `List ℚ` (every IEEE double is a
rational number); the one inherently irrational operation, the square
root producing the momentum thickness `delta2`, is taken in `ℝ` on top
of the computable rational core `thwaitesQ`.
-/

namespace MarineHydro

/-- Error taxonomy of the boundary-layer engine (spec §7):
`invalidInput` for malformed `(s, u_s)` pairs, `outOfRange` for a
fractional index outside the bounds of the interpolation primitive. -/
inductive BLError where
  | invalidInput : BLError
  | outOfRange : BLError
  deriving DecidableEq, Repr

/-- Modelled from the spec: the validity check on the station sequence,
"`s` is ... strictly increasing" (§3, §4.1 failure conditions).
Boolean recursion over adjacent pairs. -/
def sIncr : List ℚ → Bool
  | [] => true
  | [_] => true
  | a :: b :: t => decide (a < b) && sIncr (b :: t)

/-- Modelled from the spec (§4.1 step 1): `CumulativeIntegral(f, s)[i]`,
the running trapezoidal-rule integral of array `f` over `s` from index 0
to `i`, with `CumulativeIntegral(f,s)[0] = 0`. -/
def cumtrapz (f s : List ℚ) : ℕ → ℚ
  | 0 => 0
  | i + 1 =>
      cumtrapz f s i + (s.getD (i + 1) 0 - s.getD i 0) * (f.getD i 0 + f.getD (i + 1) 0) / 2

/-- Modelled from the spec (§4.1 step 2): the local velocity gradient
`du_s/ds[i]`, central differences in the interior and one-sided at the
two ends. -/
def dus (s u : List ℚ) (i : ℕ) : ℚ :=
  if i = 0 then (u.getD 1 0 - u.getD 0 0) / (s.getD 1 0 - s.getD 0 0)
  else if i = s.length - 1 then (u.getD i 0 - u.getD (i - 1) 0) / (s.getD i 0 - s.getD (i - 1) 0)
  else (u.getD (i + 1) 0 - u.getD (i - 1) 0) / (s.getD (i + 1) 0 - s.getD (i - 1) 0)

/-- Modelled from the spec (§4.1 step 1): the square of the scaled
momentum thickness, `delta2[i]^2 = 0.45 / u_s[i]^6 *
CumulativeIntegral(u_s^5, s)[i]`, with the stagnation-point edge case:
if `u_s[0] == 0` then `delta2[0]` is the closed-form limiting value, and
the L'Hôpital-style limit of the direct formula for `u_s ≈ s · du_s/ds`
near the origin gives `delta2[0]^2 = 0.45 / (6 · du_s/ds[0])`
(the Thwaites constant 0.45 and the local velocity gradient). -/
def d2sq (s u : List ℚ) (i : ℕ) : ℚ :=
  if i = 0 ∧ u.getD 0 0 = 0 then 0.45 / 6 / dus s u 0
  else 0.45 / (u.getD i 0) ^ 6 * cumtrapz (u.map (fun x => x ^ 5)) s i

/-- Modelled from the spec (§4.1 step 3): the Thwaites correlation
variable `lambda[i] = du_s/ds[i] * delta2[i]^2`, written in exact
arithmetic with `delta2[i]^2` expanded to the rational expression
`d2sq` (the composition through the square root is the identity on the
square). `lamRaw` is the computed array before post-separation zeroing. -/
def lamRaw (s u : List ℚ) (i : ℕ) : ℚ :=
  dus s u i * d2sq s u i

/-- The separation threshold: the lower bound −12 of the valid λ domain
for the Pohlhausen family (spec §4.1 step 4). -/
def sepThreshold : ℚ := -12

/-- Modelled from the spec (§4.1 step 4): scan `lambda` upward from
index `j` through `m` further entries for the first index below the
separation threshold. -/
def firstSepAux (s u : List ℚ) : ℕ → ℕ → Option ℕ
  | _, 0 => none
  | j, m + 1 =>
      if lamRaw s u j < sepThreshold then some j else firstSepAux s u (j + 1) m

/-- Modelled from the spec (§4.1 step 4): the first index `k` with
`lambda[k] < SEPARATION_THRESHOLD`, scanning in increasing-index order,
or `none` when no entry is below the threshold. -/
def firstSep (s u : List ℚ) : Option ℕ :=
  firstSepAux s u 0 s.length

/-- Modelled from the spec (§4.1 step 4): the fractional separation
index `iSep = k - 1 + (lambda[k-1] - THRESHOLD) / (lambda[k-1] -
lambda[k])` when a first crossing `k` exists, `none` ("not found"
sentinel) otherwise. -/
def iSepOf (s u : List ℚ) : Option ℚ :=
  match firstSep s u with
  | none => none
  | some k =>
      some ((k : ℚ) - 1 +
        (lamRaw s u (k - 1) - sepThreshold) / (lamRaw s u (k - 1) - lamRaw s u k))

/-- Modelled from the spec (§4.1 step 4): post-separation zeroing, `f i`
before the first crossing index, `0` at and beyond it. -/
def zeroAfter (k? : Option ℕ) (f : ℕ → ℚ) (i : ℕ) : ℚ :=
  match k? with
  | none => f i
  | some k => if k ≤ i then 0 else f i

/-- Modelled from the spec (§4.1): the rational core of
`BoundaryLayer.thwaites`.  Checks the failure conditions (length
mismatch, fewer than two stations, non-monotonic `s`), then returns the
momentum-thickness-squared array, the shape-factor array (both zeroed at
and beyond the first threshold crossing) and the fractional separation
index. -/
def thwaitesQ (s u : List ℚ) :
    Except BLError (List ℚ × List ℚ × Option ℚ) :=
  if s.length = u.length ∧ 2 ≤ s.length ∧ sIncr s = true then
    .ok ((List.range s.length).map (zeroAfter (firstSep s u) (d2sq s u)),
         (List.range s.length).map (zeroAfter (firstSep s u) (lamRaw s u)),
         iSepOf s u)
  else
    .error .invalidInput

/-- Modelled from the spec (§4.1): `BoundaryLayer.thwaites(s, u_s)`,
returning `(delta2, lambda, iSep)`.  The momentum thickness is the
square root of the rational core's first component. -/
noncomputable def thwaites (s u : List ℚ) :
    Except BLError (List ℝ × List ℚ × Option ℚ) :=
  match thwaitesQ s u with
  | .error e => .error e
  | .ok (dq, l, o) => .ok (dq.map (fun x : ℚ => Real.sqrt (x : ℝ)), l, o)

/-- Modelled from the spec (§4.2): the generic interpolation primitive
`BoundaryLayer.sep(q, idx)`: the linearly interpolated value
`q[floor(idx)] + frac(idx) * (q[ceil(idx)] - q[floor(idx)])` for a
fractional index inside `[0, N-1]`, an `OutOfRange` error outside. -/
def sep (q : List ℚ) (idx : ℚ) : Except BLError ℚ :=
  if idx < 0 ∨ (q.length : ℚ) - 1 < idx then .error .outOfRange
  else
    .ok (q.getD (⌊idx⌋.toNat) 0 +
      Int.fract idx * (q.getD (⌈idx⌉.toNat) 0 - q.getD (⌊idx⌋.toNat) 0))

/-- The per-station state of the separation latch: `true` exactly when
the station is at or beyond the first threshold crossing (spec §4.3). -/
def sepStation (s u : List ℚ) (j : ℕ) : Bool :=
  match firstSep s u with
  | none => false
  | some k => decide (k ≤ j)

/-- Pohlhausen base profile, from the notebook source:
`def pohlF(eta): return 2*eta-2*eta**3+eta**4`. -/
noncomputable def pohlF (eta : ℝ) : ℝ := 2 * eta - 2 * eta ^ 3 + eta ^ 4

/-- Pohlhausen pressure-gradient profile, from the notebook source:
`def pohlG(eta): return eta/6*(1-eta)**3`. -/
noncomputable def pohlG (eta : ℝ) : ℝ := eta / 6 * (1 - eta) ^ 3

/-! ### Helper lemmas -/

/-- `getD` through a `map`, for functions sending the default to the
default. -/
theorem getD_map_zero {α β : Type} (f : α → β) (l : List α) (i : ℕ)
    (d : α) (e : β) (hf : f d = e) : (l.map f).getD i e = f (l.getD i d) := by
  induction l generalizing i with
  | nil => simp [List.getD, hf.symm]
  | cons a t ih =>
      cases i with
      | zero => simp
      | succ j => simpa using ih j

/-- `getD` on the image of `List.range`. -/
theorem getD_range_map (n i : ℕ) (f : ℕ → ℚ) (h : i < n) :
    ((List.range n).map f).getD i 0 = f i := by
  rw [List.getD_eq_getElem?_getD]
  simp [List.getElem?_map, List.getElem?_range h]

/-- The Boolean monotonicity check agrees with pairwise strict increase
of adjacent entries. -/
theorem sIncr_iff (s : List ℚ) :
    sIncr s = true ↔ ∀ i, i + 1 < s.length → s.getD i 0 < s.getD (i + 1) 0 := by
  induction s with
  | nil => simp [sIncr]
  | cons a t ih =>
      cases t with
      | nil => simp [sIncr]
      | cons b t2 =>
          simp only [sIncr, Bool.and_eq_true, decide_eq_true_eq, ih]
          constructor
          · rintro ⟨hab, hrest⟩ i hi
            cases i with
            | zero => simpa using hab
            | succ j => simpa using hrest j (by simpa using hi)
          · intro h
            refine ⟨by simpa using h 0 (by simp), fun i hi => ?_⟩
            simpa using h (i + 1) (by simpa using hi)

/-- Characterization of the bounded scan: `some k` exactly for the
least crossing index in the scanned window. -/
theorem firstSepAux_some_iff (s u : List ℚ) :
    ∀ m j k, firstSepAux s u j m = some k ↔
      (j ≤ k ∧ k < j + m ∧ lamRaw s u k < sepThreshold ∧
        ∀ i, j ≤ i → i < k → ¬ lamRaw s u i < sepThreshold) := by
  intro m
  induction m with
  | zero =>
      intro j k
      simp only [firstSepAux]
      constructor
      · intro h; cases h
      · rintro ⟨h1, h2, -, -⟩; omega
  | succ m ih =>
      intro j k
      simp only [firstSepAux]
      by_cases hj : lamRaw s u j < sepThreshold
      · simp only [if_pos hj]
        constructor
        · rintro ⟨rfl⟩
          exact ⟨le_rfl, by omega, hj, fun i h1 h2 => by omega⟩
        · rintro ⟨h1, h2, h3, h4⟩
          by_cases hkj : k = j
          · simp [hkj]
          · exact absurd hj (h4 j le_rfl (by omega))
      · simp only [if_neg hj, ih (j + 1) k]
        constructor
        · rintro ⟨h1, h2, h3, h4⟩
          refine ⟨by omega, by omega, h3, fun i hi1 hi2 => ?_⟩
          rcases Nat.eq_or_lt_of_le hi1 with rfl | hlt
          · exact hj
          · exact h4 i hlt hi2
        · rintro ⟨h1, h2, h3, h4⟩
          have hkj : k ≠ j := fun h => hj (h ▸ h3)
          exact ⟨by omega, by omega, h3, fun i hi1 hi2 => h4 i (by omega) hi2⟩

/-- Characterization of the bounded scan returning `none`: no crossing
in the scanned window. -/
theorem firstSepAux_none_iff (s u : List ℚ) :
    ∀ m j, firstSepAux s u j m = none ↔
      ∀ i, j ≤ i → i < j + m → ¬ lamRaw s u i < sepThreshold := by
  intro m
  induction m with
  | zero =>
      intro j
      simp only [firstSepAux]
      constructor
      · intro _ i h1 h2; omega
      · intro _; trivial
  | succ m ih =>
      intro j
      simp only [firstSepAux]
      by_cases hj : lamRaw s u j < sepThreshold
      · simp only [if_pos hj]
        constructor
        · intro h; cases h
        · intro h; exact absurd hj (h j le_rfl (by omega))
      · simp only [if_neg hj, ih (j + 1)]
        constructor
        · intro h i hi1 hi2
          rcases Nat.eq_or_lt_of_le hi1 with rfl | hlt
          · exact hj
          · exact h i hlt (by omega)
        · intro h i hi1 hi2
          exact h i (by omega) (by omega)

/-- `firstSep` returns the least crossing index of the whole array. -/
theorem firstSep_some_iff (s u : List ℚ) (k : ℕ) :
    firstSep s u = some k ↔
      (k < s.length ∧ lamRaw s u k < sepThreshold ∧
        ∀ i, i < k → ¬ lamRaw s u i < sepThreshold) := by
  rw [firstSep, firstSepAux_some_iff]
  constructor
  · rintro ⟨-, h2, h3, h4⟩
    exact ⟨by omega, h3, fun i hi => h4 i (Nat.zero_le i) hi⟩
  · rintro ⟨h1, h2, h3⟩
    exact ⟨Nat.zero_le k, by omega, h2, fun i _ hi => h3 i hi⟩

/-- `firstSep` returns `none` exactly when no entry crosses. -/
theorem firstSep_none_iff (s u : List ℚ) :
    firstSep s u = none ↔ ∀ i, i < s.length → ¬ lamRaw s u i < sepThreshold := by
  rw [firstSep, firstSepAux_none_iff]
  constructor
  · intro h i h1; exact h i (Nat.zero_le i) (by omega)
  · intro h i _ h2; exact h i (by omega)

/-- The shape factor at the origin station is never below the
threshold: it is `0` for a regular origin (the cumulative integral
vanishes there) and the stagnation constant `0.075` at a stagnation
origin. -/
theorem lamRaw_zero_nonneg (s u : List ℚ) : 0 ≤ lamRaw s u 0 := by
  unfold lamRaw d2sq
  by_cases h0 : u.getD 0 0 = 0
  · rw [if_pos ⟨rfl, h0⟩]
    by_cases hd : dus s u 0 = 0
    · simp [hd]
    · rw [mul_comm, div_mul_cancel₀ _ hd]
      norm_num
  · rw [if_neg (fun h => h0 h.2)]
    simp [cumtrapz]

/-- Structure of a successful `thwaitesQ` call. -/
theorem thwaitesQ_ok_elim (s u d l : List ℚ) (o : Option ℚ)
    (h : thwaitesQ s u = .ok (d, l, o)) :
    (s.length = u.length ∧ 2 ≤ s.length ∧ sIncr s = true) ∧
    d = (List.range s.length).map (zeroAfter (firstSep s u) (d2sq s u)) ∧
    l = (List.range s.length).map (zeroAfter (firstSep s u) (lamRaw s u)) ∧
    o = iSepOf s u := by
  by_cases hc : s.length = u.length ∧ 2 ≤ s.length ∧ sIncr s = true
  · rw [thwaitesQ, if_pos hc] at h
    simp only [Except.ok.injEq, Prod.mk.injEq] at h
    exact ⟨hc, h.1.symm, h.2.1.symm, h.2.2.symm⟩
  · rw [thwaitesQ, if_neg hc] at h
    cases h

/-- Structure of a successful `thwaites` call: a successful core call
with the square root mapped over the first component. -/
theorem thwaites_ok_elim (s u : List ℚ) (D : List ℝ) (l : List ℚ)
    (o : Option ℚ) (h : thwaites s u = .ok (D, l, o)) :
    thwaitesQ s u =
      .ok ((List.range s.length).map (zeroAfter (firstSep s u) (d2sq s u)), l, o) ∧
    D = ((List.range s.length).map (zeroAfter (firstSep s u) (d2sq s u))).map
      (fun x : ℚ => Real.sqrt (x : ℝ)) := by
  rw [thwaites] at h
  cases hq : thwaitesQ s u with
  | error e => rw [hq] at h; cases h
  | ok t =>
      obtain ⟨dq, l2, o2⟩ := t
      rw [hq] at h
      simp only [Except.ok.injEq, Prod.mk.injEq] at h
      obtain ⟨hD, hl, ho⟩ := h
      obtain ⟨-, hd, hl2, ho2⟩ := thwaitesQ_ok_elim s u dq l2 o2 hq
      constructor
      · rw [hd, hl, ho]
      · rw [← hD, hd]

/-- Pointwise values of the outputs of a successful `thwaites` call. -/
theorem thwaites_getD (s u : List ℚ) (D : List ℝ) (l : List ℚ)
    (o : Option ℚ) (h : thwaites s u = .ok (D, l, o)) (j : ℕ)
    (hj : j < s.length) :
    D.getD j 0 = Real.sqrt ((zeroAfter (firstSep s u) (d2sq s u) j : ℚ) : ℝ) ∧
    l.getD j 0 = zeroAfter (firstSep s u) (lamRaw s u) j ∧
    o = iSepOf s u := by
  obtain ⟨hq, hD⟩ := thwaites_ok_elim s u D l o h
  obtain ⟨-, -, hl, ho⟩ := thwaitesQ_ok_elim s u _ l o hq
  refine ⟨?_, ?_, ho⟩
  · rw [hD, getD_map_zero (fun x : ℚ => Real.sqrt (x : ℝ)) _ j 0 0 (by simp)]
    rw [getD_range_map _ j _ hj]
  · rw [hl, getD_range_map _ j _ hj]

/-! ### C1: separation scan and fractional separation index -/

/-- C1: for every valid input, `thwaites` scans the computed `lambda`
array in increasing-index order; when a first index `k` with
`lambda[k] < -12` exists it returns
`iSep = k - 1 + (lambda[k-1] - (-12)) / (lambda[k-1] - lambda[k])`, and
when no entry is below `-12` it returns the `none` sentinel. -/
theorem thwaites_scan (s u : List ℚ) (D : List ℝ) (l : List ℚ)
    (o : Option ℚ) (h0 : s.getD 0 0 = 0)
    (hok : thwaites s u = .ok (D, l, o)) :
    (o = none ↔ ∀ i, i < s.length → ¬ lamRaw s u i < -12) ∧
    (∀ k, k < s.length → lamRaw s u k < -12 →
      (∀ j, j < k → ¬ lamRaw s u j < -12) →
      o = some ((k : ℚ) - 1 +
        (lamRaw s u (k - 1) - (-12)) / (lamRaw s u (k - 1) - lamRaw s u k))) := by
  have hthr : sepThreshold = -12 := rfl
  obtain ⟨hq, -⟩ := thwaites_ok_elim s u D l o hok
  obtain ⟨-, -, -, ho⟩ := thwaitesQ_ok_elim s u _ l o hq
  constructor
  · rw [ho, iSepOf]
    cases hfs : firstSep s u with
    | none =>
        simp only [hfs]
        rw [firstSep_none_iff] at hfs
        simp only [hthr] at hfs
        simpa using hfs
    | some k =>
        simp only [hfs]
        rw [firstSep_some_iff] at hfs
        simp only [hthr] at hfs
        constructor
        · intro hcon; cases hcon
        · intro hall; exact absurd hfs.2.1 (hall k hfs.1)
  · intro k hk hlt hleast
    have hfs : firstSep s u = some k := by
      rw [firstSep_some_iff, hthr]
      exact ⟨hk, hlt, hleast⟩
    rw [ho, iSepOf, hfs, hthr]

/-- The raw shape factor at station 0 of the running example
`s = [0,1,2]`, `u_s = [1,1,-54]`. -/
theorem exSepLam0 : lamRaw [0, 1, 2] [1, 1, -54] 0 = 0 := by
  norm_num [lamRaw, d2sq, dus, cumtrapz]

/-- The raw shape factor at station 1 of the running example: `-99/8`,
below the threshold. -/
theorem exSepLam1 : lamRaw [0, 1, 2] [1, 1, -54] 1 = -99 / 8 := by
  norm_num [lamRaw, d2sq, dus, cumtrapz]

/-- The raw shape factor at station 2 of the running example: positive
(the profile "recovers" above the threshold after the crossing). -/
theorem exSepLam2 : lamRaw [0, 1, 2] [1, 1, -54] 2 = 1683605077 / 7346640384 := by
  norm_num [lamRaw, d2sq, dus, cumtrapz]

/-- The first crossing of the running example is at `k = 1`. -/
theorem exSepFirst : firstSep [0, 1, 2] [1, 1, -54] = some 1 := by
  norm_num [firstSep, firstSepAux, exSepLam0, exSepLam1, sepThreshold]

/-- Full evaluation of `thwaites` on the running separating example. -/
theorem exSepEval : thwaites [0, 1, 2] [1, 1, -54] =
    .ok ([0, 0, 0], [0, 0, 0], some (32 / 33)) := by
  have hq : thwaitesQ [0, 1, 2] [1, 1, -54] =
      .ok ([0, 0, 0], [0, 0, 0], some (32 / 33)) := by
    rw [thwaitesQ, if_pos ⟨by norm_num, by norm_num, by norm_num [sIncr]⟩]
    rw [iSepOf, exSepFirst]
    norm_num [zeroAfter, exSepFirst, exSepLam0, exSepLam1, List.range_succ,
      d2sq, dus, cumtrapz, sepThreshold]
  rw [thwaites, hq]
  norm_num

/-- C1 witness: on `s = [0,1,2]`, `u_s = [1,1,-54]` the first crossing
is at `k = 1` (`lambda = [0, -99/8, …]`) and the returned index is
`32/33`, matching the interpolation formula. -/
theorem thwaites_scan_witness :
    some ((32 : ℚ) / 33) =
      some (((1 : ℕ) : ℚ) - 1 +
        (lamRaw [0, 1, 2] [1, 1, -54] 0 - (-12)) /
          (lamRaw [0, 1, 2] [1, 1, -54] 0 - lamRaw [0, 1, 2] [1, 1, -54] 1)) := by
  exact (thwaites_scan [0, 1, 2] [1, 1, -54] _ _ _ (by norm_num) exSepEval).2 1
    (by norm_num) (by rw [exSepLam1]; norm_num)
    (by intro j hj; interval_cases j; rw [exSepLam0]; norm_num)

/-! ### C3: stagnation-point origin -/

/-- The origin station is never zeroed: the first crossing index is
positive, because the origin shape factor is non-negative. -/
theorem zeroAfter_origin (s u : List ℚ) (f : ℕ → ℚ) :
    zeroAfter (firstSep s u) f 0 = f 0 := by
  cases hfs : firstSep s u with
  | none => rfl
  | some k =>
      have hk : ¬ k ≤ 0 := by
        intro hk0
        have hk0' : k = 0 := Nat.le_zero.mp hk0
        subst hk0'
        have h1 := (firstSep_some_iff s u 0).mp hfs
        have h2 := lamRaw_zero_nonneg s u
        have : sepThreshold = -12 := rfl
        rw [this] at h1
        linarith [h1.2.1]
      simp [zeroAfter, hk]

/-- C3: if `u_s[0] = 0` (stagnation-point origin), `thwaites` returns
the finite closed-form stagnation value
`delta2[0] = sqrt(0.45 / 6 / (du_s/ds)[0])`, determined by the Thwaites
constant and the local velocity gradient, instead of the singular 0/0 of
the direct formula. -/
theorem thwaites_stagnation (s u : List ℚ) (D : List ℝ) (l : List ℚ)
    (o : Option ℚ) (hok : thwaites s u = .ok (D, l, o))
    (h0 : u.getD 0 0 = 0) :
    D.getD 0 0 = Real.sqrt ((0.45 / 6 / dus s u 0 : ℚ) : ℝ) := by
  obtain ⟨hq, -⟩ := thwaites_ok_elim s u D l o hok
  obtain ⟨⟨-, hN, -⟩, -, -, -⟩ := thwaitesQ_ok_elim s u _ l o hq
  obtain ⟨hd0, -, -⟩ := thwaites_getD s u D l o hok 0 (by omega)
  rw [hd0, zeroAfter_origin, d2sq, if_pos ⟨rfl, h0⟩]

/-- C3 witness: on `s = [0,1]`, `u_s = [0,1]` — a stagnation-point
origin with unit velocity gradient — the returned `delta2[0]` is
`sqrt(0.075)`. -/
theorem thwaites_stagnation_witness :
    ([Real.sqrt ((3 : ℝ) / 40), Real.sqrt ((9 : ℝ) / 40)] : List ℝ).getD 0 0 =
      Real.sqrt ((0.45 / 6 / dus [0, 1] [0, 1] 0 : ℚ) : ℝ) := by
  have h1 : lamRaw [0, 1] [0, 1] 0 = 3 / 40 := by
    norm_num [lamRaw, d2sq, dus, cumtrapz]
  have h2 : lamRaw [0, 1] [0, 1] 1 = 9 / 40 := by
    norm_num [lamRaw, d2sq, dus, cumtrapz]
  have hfs : firstSep [0, 1] [0, 1] = none := by
    norm_num [firstSep, firstSepAux, h1, h2, sepThreshold]
  have hq : thwaitesQ [0, 1] [0, 1] =
      .ok ([3 / 40, 9 / 40], [3 / 40, 9 / 40], none) := by
    rw [thwaitesQ, if_pos ⟨by norm_num, by norm_num, by norm_num [sIncr]⟩]
    rw [iSepOf, hfs]
    norm_num [zeroAfter, hfs, List.range_succ]
    refine ⟨⟨?_, ?_⟩, ?_, ?_⟩ <;> norm_num [lamRaw, d2sq, dus, cumtrapz]
  have hok : thwaites [0, 1] [0, 1] =
      .ok ([Real.sqrt ((3 : ℝ) / 40), Real.sqrt ((9 : ℝ) / 40)],
        [3 / 40, 9 / 40], none) := by
    rw [thwaites, hq]
    norm_num
  exact thwaites_stagnation [0, 1] [0, 1] _ _ _ hok (by norm_num)

/-! ### C2: the momentum-thickness formula -/

/-- C2 counterexample: the claim "for every valid input and every `i`
with `u_s[i] ≠ 0` the returned `delta2[i]` equals
`sqrt(0.45 / u_s[i]^6 * T[i])`" fails on `s = [0,1,2]`,
`u_s = [1,1,-54]`: separation zeroes station 1, where the direct
formula gives `sqrt(9/20) ≠ 0`. -/
theorem thwaites_formula_cex :
    thwaites [0, 1, 2] [1, 1, -54] =
      .ok ([0, 0, 0], [0, 0, 0], some (32 / 33)) ∧
    ([1, 1, (-54 : ℚ)].getD 1 0 ≠ 0) ∧
    ([0, 0, 0] : List ℝ).getD 1 0 ≠
      Real.sqrt ((0.45 / ([1, 1, (-54 : ℚ)].getD 1 0) ^ 6 *
        cumtrapz ([1, 1, (-54 : ℚ)].map (fun x => x ^ 5)) [0, 1, 2] 1 : ℚ) : ℝ) := by
  refine ⟨exSepEval, by norm_num, ?_⟩
  have hT : (0.45 / ([1, 1, (-54 : ℚ)].getD 1 0) ^ 6 *
      cumtrapz ([1, 1, (-54 : ℚ)].map (fun x => x ^ 5)) [0, 1, 2] 1 : ℚ) = 9 / 20 := by
    norm_num [cumtrapz]
  rw [hT]
  have hpos : (0 : ℝ) < ((9 / 20 : ℚ) : ℝ) := by norm_num
  simp only [List.getD]
  intro hcon
  have := Real.sqrt_pos.mpr hpos
  rw [← hcon] at this
  norm_num at this

/-- C2 (amended): for every valid input and station `i` with
`u_s[i] ≠ 0`, as long as no station up to `i` has crossed the
separation threshold, the returned `delta2[i]` equals
`sqrt(0.45 / u_s[i]^6 * T[i])` with `T` the running trapezoidal
integral of `u_s^5` over `s`. -/
theorem thwaites_formula (s u : List ℚ) (D : List ℝ) (l : List ℚ)
    (o : Option ℚ) (hok : thwaites s u = .ok (D, l, o)) (i : ℕ)
    (hi : i < s.length) (hu : u.getD i 0 ≠ 0)
    (hpre : ∀ k, k ≤ i → ¬ lamRaw s u k < -12) :
    D.getD i 0 = Real.sqrt ((0.45 / (u.getD i 0) ^ 6 *
      cumtrapz (u.map (fun x => x ^ 5)) s i : ℚ) : ℝ) := by
  obtain ⟨hd, -, -⟩ := thwaites_getD s u D l o hok i hi
  rw [hd]
  have hz : zeroAfter (firstSep s u) (d2sq s u) i = d2sq s u i := by
    cases hfs : firstSep s u with
    | none => rfl
    | some k =>
        have hk : ¬ k ≤ i := by
          intro hki
          have h1 := (firstSep_some_iff s u k).mp hfs
          have : sepThreshold = -12 := rfl
          rw [this] at h1
          exact hpre k hki h1.2.1
        simp [zeroAfter, hk]
  rw [hz, d2sq, if_neg]
  intro hcon
  exact hu (by rw [hcon.1]; exact hcon.2)

/-- C2 witness: on the flat-plate pair `s = [0,1]`, `u_s = [1,1]` the
returned `delta2[1]` is exactly `sqrt(0.45 · T[1]) = sqrt(9/20)`. -/
theorem thwaites_formula_witness :
    ([0, Real.sqrt ((9 : ℝ) / 20)] : List ℝ).getD 1 0 =
      Real.sqrt ((0.45 / (([1, 1] : List ℚ).getD 1 0) ^ 6 *
        cumtrapz (([1, 1] : List ℚ).map (fun x => x ^ 5)) [0, 1] 1 : ℚ) : ℝ) := by
  have h1 : lamRaw [0, 1] [1, 1] 0 = 0 := by
    norm_num [lamRaw, d2sq, dus, cumtrapz]
  have h2 : lamRaw [0, 1] [1, 1] 1 = 0 := by
    norm_num [lamRaw, d2sq, dus, cumtrapz]
  have hfs : firstSep [0, 1] [1, 1] = none := by
    norm_num [firstSep, firstSepAux, h1, h2, sepThreshold]
  have hq : thwaitesQ [0, 1] [1, 1] = .ok ([0, 9 / 20], [0, 0], none) := by
    rw [thwaitesQ, if_pos ⟨by norm_num, by norm_num, by norm_num [sIncr]⟩]
    rw [iSepOf, hfs]
    norm_num [zeroAfter, hfs, List.range_succ]
    refine ⟨⟨?_, ?_⟩, ?_, ?_⟩ <;> norm_num [lamRaw, d2sq, dus, cumtrapz]
  have hok : thwaites [0, 1] [1, 1] =
      .ok ([0, Real.sqrt ((9 : ℝ) / 20)], [0, 0], none) := by
    rw [thwaites, hq]
    norm_num
  exact thwaites_formula [0, 1] [1, 1] _ _ _ hok 1 (by norm_num) (by norm_num)
    (by intro k hk; interval_cases k <;> [rw [h1]; rw [h2]] <;> norm_num)

/-! ### C4: post-separation zeroing -/

/-- If the call returns a separation index `some v` then the first
crossing `k` satisfies `k ≥ 1` and `k - 1 ≤ v < k`. -/
theorem iSep_between (s u : List ℚ) (v : ℚ) (h : iSepOf s u = some v) :
    ∃ k, firstSep s u = some k ∧ 1 ≤ k ∧
      ((k : ℚ) - 1 ≤ v ∧ v < (k : ℚ)) := by
  rw [iSepOf] at h
  cases hfs : firstSep s u with
  | none => rw [hfs] at h; cases h
  | some k =>
      rw [hfs] at h
      obtain ⟨hkN, hkcross, hkleast⟩ := (firstSep_some_iff s u k).mp hfs
      have hthr : sepThreshold = -12 := rfl
      have hk1 : 1 ≤ k := by
        rcases Nat.eq_zero_or_pos k with rfl | h1
        · have := lamRaw_zero_nonneg s u
          rw [hthr] at hkcross
          linarith
        · exact h1
      have hprev : ¬ lamRaw s u (k - 1) < sepThreshold :=
        hkleast (k - 1) (by omega)
      rw [hthr] at hkcross hprev
      push_neg at hprev
      have hden : 0 < lamRaw s u (k - 1) - lamRaw s u k := by linarith
      have hnum : 0 ≤ lamRaw s u (k - 1) - sepThreshold := by
        rw [hthr]; linarith
      refine ⟨k, rfl, hk1, ?_, ?_⟩
      · have hfrac : 0 ≤ (lamRaw s u (k - 1) - sepThreshold) /
            (lamRaw s u (k - 1) - lamRaw s u k) := div_nonneg hnum (le_of_lt hden)
        have hv : v = (k : ℚ) - 1 + (lamRaw s u (k - 1) - sepThreshold) /
            (lamRaw s u (k - 1) - lamRaw s u k) := by
          injection h.symm
        rw [hv]; linarith
      · have hfrac : (lamRaw s u (k - 1) - sepThreshold) /
            (lamRaw s u (k - 1) - lamRaw s u k) < 1 := by
          rw [div_lt_one hden, hthr]
          linarith
        have hv : v = (k : ℚ) - 1 + (lamRaw s u (k - 1) - sepThreshold) /
            (lamRaw s u (k - 1) - lamRaw s u k) := by
          injection h.symm
        rw [hv]; linarith

/-- C4 counterexample: the claim "`delta2[j] = 0` and `lambda[j] = 0`
for all `j ≥ ceil(iSep)`" fails on `s = [0,1,2,3]`,
`u_s = [1,1,-157/3,6000]`: the shape factor hits the threshold exactly
(`lambda[1] = -12`), so `iSep = 1` is an integer, `ceil(iSep) = 1`, yet
station 1 keeps its value `-12 ≠ 0` (zeroing starts at the first strict
crossing `k = 2`). -/
theorem thwaites_zeroing_cex :
    thwaites [0, 1, 2, 3] [1, 1, -157/3, 6000] =
      .ok ([0, Real.sqrt ((9 : ℝ) / 20), 0, 0], [0, -12, 0, 0], some 1) ∧
    (⌈(1 : ℚ)⌉.toNat ≤ 1) ∧
    ([0, (-12 : ℚ), 0, 0].getD 1 0 ≠ 0) := by
  have h0 : lamRaw [0, 1, 2, 3] [1, 1, -157/3, 6000] 0 = 0 := by
    norm_num [lamRaw, d2sq, dus, cumtrapz]
  have h1 : lamRaw [0, 1, 2, 3] [1, 1, -157/3, 6000] 1 = -12 := by
    norm_num [lamRaw, d2sq, dus, cumtrapz]
  have h2 : lamRaw [0, 1, 2, 3] [1, 1, -157/3, 6000] 2 < -12 := by
    norm_num [lamRaw, d2sq, dus, cumtrapz]
  have hfs : firstSep [0, 1, 2, 3] [1, 1, -157/3, 6000] = some 2 := by
    norm_num [firstSep, firstSepAux, lamRaw, d2sq, dus, cumtrapz, sepThreshold]
  have hq : thwaitesQ [0, 1, 2, 3] [1, 1, -157/3, 6000] =
      .ok ([0, 9 / 20, 0, 0], [0, -12, 0, 0], some 1) := by
    rw [thwaitesQ, if_pos ⟨by norm_num, by norm_num, by norm_num [sIncr]⟩]
    rw [iSepOf, hfs]
    norm_num [zeroAfter, hfs, List.range_succ, sepThreshold, lamRaw, d2sq,
      dus, cumtrapz]
  refine ⟨?_, by norm_num, by norm_num⟩
  rw [thwaites, hq]
  norm_num

/-- C4 (amended): when `thwaites` reports a separation index `iSep`,
every station strictly beyond `iSep` — equivalently every station at or
beyond the first crossing index `k`, which is `ceil(iSep)` except when
`iSep` is an exact integer — has `delta2[j] = 0` and `lambda[j] = 0`. -/
theorem thwaites_zeroing (s u : List ℚ) (D : List ℝ) (l : List ℚ)
    (v : ℚ) (hok : thwaites s u = .ok (D, l, some v)) :
    ∀ j, j < s.length → v < (j : ℚ) → D.getD j 0 = 0 ∧ l.getD j 0 = 0 := by
  intro j hj hvj
  obtain ⟨hD, hl, ho⟩ := thwaites_getD s u D l (some v) hok j hj
  obtain ⟨k, hfs, hk1, hlow, hhigh⟩ := iSep_between s u v ho.symm
  have hkj : k ≤ j := by
    have : (k : ℚ) - 1 < (j : ℚ) := lt_of_le_of_lt hlow hvj
    have : (k : ℚ) < (j : ℚ) + 1 := by linarith
    exact_mod_cast Nat.lt_succ_iff.mp (by exact_mod_cast this)
  have hz : zeroAfter (firstSep s u) (d2sq s u) j = 0 := by
    rw [hfs]; simp [zeroAfter, hkj]
  have hz2 : zeroAfter (firstSep s u) (lamRaw s u) j = 0 := by
    rw [hfs]; simp [zeroAfter, hkj]
  refine ⟨?_, by rw [hl, hz2]⟩
  rw [hD, hz]
  simp

/-- C4 witness: on the running separating example (`iSep = 32/33`),
station 1 (`> iSep`) is zeroed in both outputs. -/
theorem thwaites_zeroing_witness :
    ([0, 0, 0] : List ℝ).getD 1 0 = 0 ∧ ([0, 0, 0] : List ℚ).getD 1 0 = 0 :=
  thwaites_zeroing [0, 1, 2] [1, 1, -54] _ _ _ exSepEval 1 (by norm_num)
    (by norm_num)

/-! ### C5: the one-way separation latch -/

/-- C5: the per-station scan is a one-way latch: the origin station is
ATTACHED, a SEPARATED station is followed only by SEPARATED stations,
SEPARATED stations carry the zero sentinel in both outputs, and
ATTACHED stations carry the live computed values — irrespective of any
later recovery of the shape factor above the threshold. -/
theorem thwaites_latch (s u : List ℚ) (D : List ℝ) (l : List ℚ)
    (o : Option ℚ) (hok : thwaites s u = .ok (D, l, o)) :
    sepStation s u 0 = false ∧
    (∀ j, sepStation s u j = true → sepStation s u (j + 1) = true) ∧
    (∀ j, j < s.length → sepStation s u j = true →
      D.getD j 0 = 0 ∧ l.getD j 0 = 0) ∧
    (∀ j, j < s.length → sepStation s u j = false →
      D.getD j 0 = Real.sqrt ((d2sq s u j : ℚ) : ℝ) ∧
      l.getD j 0 = lamRaw s u j) := by
  refine ⟨?_, ?_, ?_, ?_⟩
  · rw [sepStation]
    cases hfs : firstSep s u with
    | none => rfl
    | some k =>
        have hthr : sepThreshold = -12 := rfl
        obtain ⟨-, hc, -⟩ := (firstSep_some_iff s u k).mp hfs
        have h0 := lamRaw_zero_nonneg s u
        rcases Nat.eq_zero_or_pos k with rfl | h1
        · rw [hthr] at hc; linarith
        · simpa using by omega
  · intro j hj
    rw [sepStation] at hj ⊢
    cases hfs : firstSep s u with
    | none => rw [hfs] at hj; cases hj
    | some k =>
        rw [hfs] at hj
        simp only [decide_eq_true_eq] at hj ⊢
        omega
  · intro j hj hsep
    rw [sepStation] at hsep
    obtain ⟨hD, hl, -⟩ := thwaites_getD s u D l o hok j hj
    cases hfs : firstSep s u with
    | none => rw [hfs] at hsep; cases hsep
    | some k =>
        rw [hfs] at hsep
        simp only [decide_eq_true_eq] at hsep
        have hz : zeroAfter (firstSep s u) (d2sq s u) j = 0 := by
          rw [hfs]; simp [zeroAfter, hsep]
        have hz2 : zeroAfter (firstSep s u) (lamRaw s u) j = 0 := by
          rw [hfs]; simp [zeroAfter, hsep]
        refine ⟨?_, by rw [hl, hz2]⟩
        rw [hD, hz]
        simp
  · intro j hj hatt
    rw [sepStation] at hatt
    obtain ⟨hD, hl, -⟩ := thwaites_getD s u D l o hok j hj
    cases hfs : firstSep s u with
    | none =>
        have hz : zeroAfter (firstSep s u) (d2sq s u) j = d2sq s u j := by
          rw [hfs]; rfl
        have hz2 : zeroAfter (firstSep s u) (lamRaw s u) j = lamRaw s u j := by
          rw [hfs]; rfl
        exact ⟨by rw [hD, hz], by rw [hl, hz2]⟩
    | some k =>
        rw [hfs] at hatt
        simp only [decide_eq_false_iff_not] at hatt
        have hz : zeroAfter (firstSep s u) (d2sq s u) j = d2sq s u j := by
          rw [hfs]; simp [zeroAfter, hatt]
        have hz2 : zeroAfter (firstSep s u) (lamRaw s u) j = lamRaw s u j := by
          rw [hfs]; simp [zeroAfter, hatt]
        exact ⟨by rw [hD, hz], by rw [hl, hz2]⟩

/-- C5 witness: in the running example the raw shape factor recovers
above the threshold at station 2 (`lambda_raw[2] > -12`), yet station 2
remains latched SEPARATED and zeroed. -/
theorem thwaites_latch_witness :
    ¬ lamRaw [0, 1, 2] [1, 1, -54] 2 < -12 ∧
    sepStation [0, 1, 2] [1, 1, -54] 2 = true ∧
    (([0, 0, 0] : List ℝ).getD 2 0 = 0 ∧ ([0, 0, 0] : List ℚ).getD 2 0 = 0) := by
  refine ⟨by rw [exSepLam2]; norm_num, ?_, ?_⟩
  · rw [sepStation, exSepFirst]
    norm_num
  · exact (thwaites_latch [0, 1, 2] [1, 1, -54] _ _ _ exSepEval).2.2.1 2
      (by norm_num) (by rw [sepStation, exSepFirst]; norm_num)

/-! ### C6: the interpolation primitive -/

/-- C6: for any sequence `q` and fractional index `idx` inside
`[0, N-1]`, `sep` returns
`q[floor(idx)] + frac(idx) * (q[ceil(idx)] - q[floor(idx)])`; at an
integer index `i` it returns `q[i]` exactly, independent of the
semantics of `q`. -/
theorem sep_interp (q : List ℚ) :
    (∀ idx : ℚ, 0 ≤ idx → idx ≤ (q.length : ℚ) - 1 →
      sep q idx = .ok (q.getD (⌊idx⌋.toNat) 0 +
        Int.fract idx * (q.getD (⌈idx⌉.toNat) 0 - q.getD (⌊idx⌋.toNat) 0))) ∧
    (∀ i : ℕ, i < q.length → sep q (i : ℚ) = .ok (q.getD i 0)) := by
  constructor
  · intro idx h0 h1
    rw [sep, if_neg]
    push_neg
    exact ⟨h0, h1⟩
  · intro i hi
    have hle : (i : ℚ) ≤ (q.length : ℚ) - 1 := by
      have : (i : ℚ) + 1 ≤ (q.length : ℚ) := by exact_mod_cast hi
      linarith
    rw [sep, if_neg]
    · simp [Int.floor_natCast, Int.ceil_natCast, Int.fract_natCast]
    · push_neg
      exact ⟨by positivity, hle⟩

/-- C6 witness: `sep [10, 20] (1/2) = 15` (the interpolation formula at
a half-integer index), and `sep [10, 20] 1 = 20` (the integer-index
identity). -/
theorem sep_interp_witness :
    sep [10, 20] (1 / 2) =
      .ok (([10, 20] : List ℚ).getD ((⌊(1 / 2 : ℚ)⌋).toNat) 0 +
        Int.fract (1 / 2 : ℚ) *
          (([10, 20] : List ℚ).getD ((⌈(1 / 2 : ℚ)⌉).toNat) 0 -
            ([10, 20] : List ℚ).getD ((⌊(1 / 2 : ℚ)⌋).toNat) 0)) ∧
    sep [10, 20] ((1 : ℕ) : ℚ) = .ok (([10, 20] : List ℚ).getD 1 0) :=
  ⟨(sep_interp [10, 20]).1 (1 / 2) (by norm_num) (by norm_num),
   (sep_interp [10, 20]).2 1 (by norm_num)⟩

/-! ### C8: out-of-range errors of the interpolation primitive -/

/-- C8: `sep` fails with `OutOfRange`, and never silently clamps,
exactly for the fractional indices outside `[0, N-1]`. -/
theorem sep_oob (q : List ℚ) (idx : ℚ) :
    sep q idx = .error .outOfRange ↔ (idx < 0 ∨ (q.length : ℚ) - 1 < idx) := by
  rw [sep]
  split_ifs with h
  · simp [h]
  · simp [h]

/-! ### C7: input-validation errors of thwaites -/

/-- Success indicator for an engine result. -/
def isOkE {α : Type} : Except BLError α → Bool
  | .ok _ => true
  | .error _ => false

/-- The core returns `InvalidInput` exactly when the validity check
fails. -/
theorem thwaitesQ_error_iff (s u : List ℚ) :
    thwaitesQ s u = .error .invalidInput ↔
      ¬ (s.length = u.length ∧ 2 ≤ s.length ∧ sIncr s = true) := by
  rw [thwaitesQ]
  split_ifs with h
  · exact iff_of_false (by simp) (not_not_intro h)
  · exact iff_of_true rfl h

/-- Errors pass through the square-root wrapper unchanged. -/
theorem thwaites_error_iff (s u : List ℚ) (e : BLError) :
    thwaites s u = .error e ↔ thwaitesQ s u = .error e := by
  rw [thwaites]
  cases hq : thwaitesQ s u with
  | error e2 => simp
  | ok t =>
      obtain ⟨a, b, c⟩ := t
      simp

/-- C7: `thwaites` fails with `InvalidInput` — producing no output —
exactly when the lengths differ, there are fewer than two stations, or
`s` is not strictly increasing; this is the only possible error, and a
zero of `u_s` at a non-origin station of a valid input does not abort
the computation. -/
theorem thwaites_invalid (s u : List ℚ) :
    (thwaites s u = .error .invalidInput ↔
      (s.length ≠ u.length ∨ s.length < 2 ∨
        ¬ ∀ i, i + 1 < s.length → s.getD i 0 < s.getD (i + 1) 0)) ∧
    (∀ e, thwaites s u = .error e → e = .invalidInput) ∧
    (s.length = u.length → 2 ≤ s.length →
      (∀ i, i + 1 < s.length → s.getD i 0 < s.getD (i + 1) 0) →
      ∀ i, i < s.length → i ≠ 0 → u.getD i 0 = 0 →
        isOkE (thwaites s u) = true) := by
  have hmain : thwaites s u = .error .invalidInput ↔
      (s.length ≠ u.length ∨ s.length < 2 ∨
        ¬ ∀ i, i + 1 < s.length → s.getD i 0 < s.getD (i + 1) 0) := by
    rw [thwaites_error_iff, thwaitesQ_error_iff, sIncr_iff]
    constructor
    · intro h
      by_contra hcon
      push_neg at hcon
      exact h ⟨hcon.1, by omega, hcon.2.2⟩
    · rintro (h | h | h) ⟨h1, h2, h3⟩
      · exact h h1
      · omega
      · exact h h3
  refine ⟨hmain, ?_, ?_⟩
  · intro e he
    cases e with
    | invalidInput => rfl
    | outOfRange =>
        rw [thwaites_error_iff, thwaitesQ] at he
        split_ifs at he <;> cases he
  · intro hlen h2 hmono i hi hi0 hu0
    rw [thwaites]
    have hq : ¬ thwaitesQ s u = .error .invalidInput := by
      rw [thwaitesQ_error_iff]
      intro hcon
      exact hcon ⟨hlen, h2, (sIncr_iff s).mpr hmono⟩
    cases hqe : thwaitesQ s u with
    | error e2 =>
        cases e2 with
        | invalidInput => exact absurd hqe hq
        | outOfRange =>
            rw [thwaitesQ] at hqe
            split_ifs at hqe <;> cases hqe
    | ok t =>
        obtain ⟨a, b, c⟩ := t
        rfl

/-- C7 witness: `s = [0,1,2]`, `u_s = [1,0,1]` — a zero external
velocity at the non-origin station 1 — is accepted and computed, and
the non-monotonic input `s = [0,0]` is rejected with `InvalidInput`. -/
theorem thwaites_invalid_witness :
    isOkE (thwaites [0, 1, 2] [1, 0, 1]) = true ∧
    thwaites [0, 0] [1, 1] = .error .invalidInput := by
  constructor
  · exact (thwaites_invalid [0, 1, 2] [1, 0, 1]).2.2 (by norm_num) (by norm_num)
      (by
        intro i hi
        have hi2 : i < 2 := by
          have : i + 1 < 3 := by simpa using hi
          omega
        interval_cases i <;> norm_num)
      1 (by norm_num) (by norm_num) (by norm_num)
  · exact (thwaites_invalid [0, 0] [1, 1]).1.mpr (Or.inr (Or.inr (by
      intro hcon
      have := hcon 0 (by norm_num)
      norm_num at this)))

/-! ### C9: causality -/

/-- The running trapezoidal integral up to `i` only reads the integrand
at indices `≤ i`. -/
theorem cumtrapz_congr (f g s : List ℚ) (i : ℕ)
    (h : ∀ j, j ≤ i → f.getD j 0 = g.getD j 0) :
    cumtrapz f s i = cumtrapz g s i := by
  induction i with
  | zero => rfl
  | succ n ih =>
      rw [cumtrapz, cumtrapz, ih (fun j hj => h j (by omega)),
        h n (by omega), h (n + 1) le_rfl]

/-- `getD` of the fifth-power image. -/
theorem getD_map_pow5 (u : List ℚ) (j : ℕ) :
    (u.map (fun x => x ^ 5)).getD j 0 = (u.getD j 0) ^ 5 :=
  getD_map_zero (fun x => x ^ 5) u j 0 0 (by norm_num)

/-- The finite-difference gradient at `i` only reads the velocity at
indices `≤ i + 1`. -/
theorem dus_congr (s u v : List ℚ) (i : ℕ)
    (h : ∀ j, j ≤ i + 1 → u.getD j 0 = v.getD j 0) :
    dus s u i = dus s v i := by
  rw [dus, dus]
  split_ifs with h1 h2
  · rw [h 1 (by omega), h 0 (by omega)]
  · rw [h i (by omega), h (i - 1) (by omega)]
  · rw [h (i + 1) le_rfl, h (i - 1) (by omega)]

/-- The momentum-thickness square at `i` only reads the velocity at
indices `≤ i + 1` (the `+ 1` via the stagnation branch's gradient). -/
theorem d2sq_congr (s u v : List ℚ) (i : ℕ)
    (h : ∀ j, j ≤ i + 1 → u.getD j 0 = v.getD j 0) :
    d2sq s u i = d2sq s v i := by
  have h00 : u.getD 0 0 = v.getD 0 0 := h 0 (by omega)
  by_cases hc : i = 0 ∧ v.getD 0 0 = 0
  · have hcu : i = 0 ∧ u.getD 0 0 = 0 := ⟨hc.1, by rw [h00]; exact hc.2⟩
    rw [d2sq, d2sq, if_pos hcu, if_pos hc,
      dus_congr s u v 0 (fun j hj => h j (by omega))]
  · have hcu : ¬ (i = 0 ∧ u.getD 0 0 = 0) :=
      fun hx => hc ⟨hx.1, by rw [← h00]; exact hx.2⟩
    rw [d2sq, d2sq, if_neg hcu, if_neg hc, h i (by omega)]
    have : cumtrapz (u.map (fun x => x ^ 5)) s i =
        cumtrapz (v.map (fun x => x ^ 5)) s i := by
      refine cumtrapz_congr _ _ s i (fun j hj => ?_)
      rw [getD_map_pow5, getD_map_pow5, h j (by omega)]
    rw [this]

/-- The raw shape factor at `i` only reads the velocity at indices
`≤ i + 1`. -/
theorem lamRaw_congr (s u v : List ℚ) (i : ℕ)
    (h : ∀ j, j ≤ i + 1 → u.getD j 0 = v.getD j 0) :
    lamRaw s u i = lamRaw s v i := by
  rw [lamRaw, lamRaw, dus_congr s u v i h, d2sq_congr s u v i h]

/-- The zeroing mask at station `j` is decided by the crossings at
stations `≤ j`. -/
theorem output_at (s u : List ℚ) (f : ℕ → ℚ) (j : ℕ) (hj : j < s.length) :
    ((∃ k, k ≤ j ∧ lamRaw s u k < sepThreshold) →
      zeroAfter (firstSep s u) f j = 0) ∧
    ((∀ k, k ≤ j → ¬ lamRaw s u k < sepThreshold) →
      zeroAfter (firstSep s u) f j = f j) := by
  constructor
  · rintro ⟨k, hk, hcross⟩
    cases hfs : firstSep s u with
    | none =>
        have hnone := (firstSep_none_iff s u).mp hfs
        exact absurd hcross (hnone k (by omega))
    | some k0 =>
        obtain ⟨hk0N, hk0c, hk0least⟩ := (firstSep_some_iff s u k0).mp hfs
        have hle : k0 ≤ j := by
          by_contra hcon
          push_neg at hcon
          exact hk0least k (by omega) hcross
        simp [zeroAfter, hle]
  · intro hall
    cases hfs : firstSep s u with
    | none => rfl
    | some k0 =>
        obtain ⟨hk0N, hk0c, -⟩ := (firstSep_some_iff s u k0).mp hfs
        have hnle : ¬ k0 ≤ j := fun hc => hall k0 hc hk0c
        simp [zeroAfter, hnle]

/-- Full evaluation of `thwaites` on the uniform-velocity input of the
causality example. -/
theorem exCauEvalU : thwaites [0, 1, 2] [1, 1, 1] =
    .ok ([0, Real.sqrt ((9 : ℝ) / 20), Real.sqrt ((9 : ℝ) / 10)],
      [0, 0, 0], none) := by
  have hfs : firstSep [0, 1, 2] [1, 1, 1] = none := by
    norm_num [firstSep, firstSepAux, lamRaw, d2sq, dus, cumtrapz, sepThreshold]
  have hq : thwaitesQ [0, 1, 2] [1, 1, 1] =
      .ok ([0, 9 / 20, 9 / 10], [0, 0, 0], none) := by
    rw [thwaitesQ, if_pos ⟨by norm_num, by norm_num, by norm_num [sIncr]⟩]
    rw [iSepOf, hfs]
    norm_num [zeroAfter, hfs, List.range_succ]
    norm_num [lamRaw, d2sq, dus, cumtrapz]
  rw [thwaites, hq]
  norm_num

/-- Full evaluation of `thwaites` on the perturbed input of the
causality example (only the last entry of `u_s` differs). -/
theorem exCauEvalV : thwaites [0, 1, 2] [1, 1, 2] =
    .ok ([0, Real.sqrt ((9 : ℝ) / 20), Real.sqrt ((63 : ℝ) / 512)],
      [0, 9 / 40, 63 / 512], none) := by
  have hfs : firstSep [0, 1, 2] [1, 1, 2] = none := by
    norm_num [firstSep, firstSepAux, lamRaw, d2sq, dus, cumtrapz, sepThreshold]
  have hq : thwaitesQ [0, 1, 2] [1, 1, 2] =
      .ok ([0, 9 / 20, 63 / 512], [0, 9 / 40, 63 / 512], none) := by
    rw [thwaitesQ, if_pos ⟨by norm_num, by norm_num, by norm_num [sIncr]⟩]
    rw [iSepOf, hfs]
    norm_num [zeroAfter, hfs, List.range_succ]
    norm_num [lamRaw, d2sq, dus, cumtrapz]
  rw [thwaites, hq]
  norm_num

/-- C9 counterexample: the claim "changing `u_s[j]` for `j > i` never
changes `delta2[i]` or `lambda[i]`" fails at `i = 1` for
`s = [0, 1, 2]` with `u_s = [1, 1, 1]` versus `[1, 1, 2]`: the inputs
agree at indices `0` and `1`, yet the returned `lambda[1]` differs
(`0` versus `9/40`), because the central difference at station 1 reads
`u_s[2]`. -/
theorem thwaites_causal_cex :
    thwaites [0, 1, 2] [1, 1, 1] =
      .ok ([0, Real.sqrt ((9 : ℝ) / 20), Real.sqrt ((9 : ℝ) / 10)],
        [0, 0, 0], none) ∧
    thwaites [0, 1, 2] [1, 1, 2] =
      .ok ([0, Real.sqrt ((9 : ℝ) / 20), Real.sqrt ((63 : ℝ) / 512)],
        [0, 9 / 40, 63 / 512], none) ∧
    ([1, 1, (1 : ℚ)].getD 0 0 = [1, 1, (2 : ℚ)].getD 0 0 ∧
      [1, 1, (1 : ℚ)].getD 1 0 = [1, 1, (2 : ℚ)].getD 1 0) ∧
    [0, 0, (0 : ℚ)].getD 1 0 ≠ [0, (9 : ℚ) / 40, 63 / 512].getD 1 0 :=
  ⟨exCauEvalU, exCauEvalV, ⟨by norm_num, by norm_num⟩, by norm_num⟩

/-- C9 (amended): output causality holds with a one-station slack: if
two calls share `s` and their velocities agree at all indices `≤ i+1`,
then the returned `delta2` and `lambda` agree at every station `j ≤ i`.
(The central difference at a station reads one entry downstream, so
agreement up to `i` alone is not enough.) -/
theorem thwaites_causal (s u v : List ℚ) (D D2 : List ℝ) (l l2 : List ℚ)
    (o o2 : Option ℚ) (i : ℕ) (hok : thwaites s u = .ok (D, l, o))
    (hok2 : thwaites s v = .ok (D2, l2, o2))
    (hagree : ∀ j, j ≤ i + 1 → u.getD j 0 = v.getD j 0) :
    ∀ j, j ≤ i → j < s.length →
      D.getD j 0 = D2.getD j 0 ∧ l.getD j 0 = l2.getD j 0 := by
  intro j hji hjN
  obtain ⟨hD, hl, -⟩ := thwaites_getD s u D l o hok j hjN
  obtain ⟨hD2, hl2, -⟩ := thwaites_getD s v D2 l2 o2 hok2 j hjN
  have hlam : ∀ k, k ≤ j → lamRaw s u k = lamRaw s v k := fun k hk =>
    lamRaw_congr s u v k (fun m hm => hagree m (by omega))
  have hd2 : d2sq s u j = d2sq s v j :=
    d2sq_congr s u v j (fun m hm => hagree m (by omega))
  by_cases hcross : ∃ k, k ≤ j ∧ lamRaw s u k < sepThreshold
  · obtain ⟨k, hk, hc⟩ := hcross
    have hcv : lamRaw s v k < sepThreshold := by rw [← hlam k hk]; exact hc
    have hzu := (output_at s u (d2sq s u) j hjN).1 ⟨k, hk, hc⟩
    have hzu2 := (output_at s u (lamRaw s u) j hjN).1 ⟨k, hk, hc⟩
    have hzv := (output_at s v (d2sq s v) j hjN).1 ⟨k, hk, hcv⟩
    have hzv2 := (output_at s v (lamRaw s v) j hjN).1 ⟨k, hk, hcv⟩
    exact ⟨by rw [hD, hD2, hzu, hzv], by rw [hl, hl2, hzu2, hzv2]⟩
  · rw [not_exists] at hcross
    have hnu : ∀ k, k ≤ j → ¬ lamRaw s u k < sepThreshold := fun k hk hlt =>
      hcross k ⟨hk, hlt⟩
    have hno_v : ∀ k, k ≤ j → ¬ lamRaw s v k < sepThreshold := fun k hk => by
      rw [← hlam k hk]; exact hnu k hk
    have h1 := (output_at s u (d2sq s u) j hjN).2 hnu
    have h2 := (output_at s u (lamRaw s u) j hjN).2 hnu
    have h3 := (output_at s v (d2sq s v) j hjN).2 hno_v
    have h4 := (output_at s v (lamRaw s v) j hjN).2 hno_v
    exact ⟨by rw [hD, hD2, h1, h3, hd2],
      by rw [hl, hl2, h2, h4, hlam j le_rfl]⟩

/-- C9 witness: the two causality-example runs agree on `u_s` at
indices `≤ 1`, so the outputs agree at station `0`. -/
theorem thwaites_causal_witness :
    ([0, Real.sqrt ((9 : ℝ) / 20), Real.sqrt ((9 : ℝ) / 10)] : List ℝ).getD 0 0 =
      ([0, Real.sqrt ((9 : ℝ) / 20), Real.sqrt ((63 : ℝ) / 512)] : List ℝ).getD 0 0 ∧
    ([0, 0, (0 : ℚ)] : List ℚ).getD 0 0 =
      ([0, (9 : ℚ) / 40, 63 / 512] : List ℚ).getD 0 0 :=
  thwaites_causal [0, 1, 2] [1, 1, 1] [1, 1, 2] _ _ _ _ _ _ 0
    exCauEvalU exCauEvalV
    (by intro j hj; interval_cases j <;> norm_num)
    0 le_rfl (by norm_num)

/-! ### C10: the Pohlhausen wall shear and the −12 threshold -/

/-- C10: for the notebook's Pohlhausen family
`f(eta, lambda) = pohlF(eta) + lambda * pohlG(eta)`, the wall slope
`d f / d eta` at `eta = 0` is `2 + lambda / 6`, which vanishes exactly
at `lambda = -12` — the separation threshold used by `thwaites` — and
the profile satisfies `f(0, lambda) = 0` and `f(1, lambda) = 1` for
every `lambda`. -/
theorem pohl_wall (lam : ℝ) :
    HasDerivAt (fun eta => pohlF eta + lam * pohlG eta) (2 + lam / 6) 0 ∧
    (2 + lam / 6 = 0 ↔ lam = ((sepThreshold : ℚ) : ℝ)) ∧
    pohlF 0 + lam * pohlG 0 = 0 ∧
    pohlF 1 + lam * pohlG 1 = 1 := by
  refine ⟨?_, ?_, ?_, ?_⟩
  · have hF := (((hasDerivAt_id (0 : ℝ)).const_mul (2 : ℝ)).sub
      ((hasDerivAt_pow 3 (0 : ℝ)).const_mul 2)).add (hasDerivAt_pow 4 (0 : ℝ))
    have hG := ((hasDerivAt_id (0 : ℝ)).div_const 6).mul
      (((hasDerivAt_const (0 : ℝ) (1 : ℝ)).sub (hasDerivAt_id 0)).pow 3)
    have h := hF.add (hG.const_mul lam)
    simp only [id_eq] at h
    have hfun : (fun eta : ℝ => 2 * eta - 2 * eta ^ 3 + eta ^ 4 +
        lam * (eta / 6 * (1 - eta) ^ 3)) =
        fun eta => pohlF eta + lam * pohlG eta := by
      funext eta
      rw [pohlF, pohlG]
    rw [hfun] at h
    convert h using 1
    push_cast
    ring
  · have hth : ((sepThreshold : ℚ) : ℝ) = -12 := by
      norm_num [sepThreshold]
    rw [hth]
    constructor <;> intro h <;> linarith
  · rw [pohlF, pohlG]
    norm_num
  · rw [pohlF, pohlG]
    norm_num

end MarineHydro
